import Mathlib

/-!
Verification of the AQL query result cache (`arangod/Aql/QueryCache.h`).

The repository provides the header declaring `QueryCacheResultEntry`,
`QueryCacheDatabaseEntry` and `QueryCache`; the method bodies live in a
`.cpp` file that is not part of the sources at hand, so each operation
below is modelled from the design document, over the data structures
declared in the header.

Hash maps (`std::unordered_map`) are embedded as association lists,
hash sets (`std::unordered_set`) as duplicate-free lists, and the
intrusive doubly linked eviction list (`_prev`/`_next`/`_head`/`_tail`)
as a list of hashes in insertion order, head first.
-/

set_option autoImplicit false

namespace QueryCacheModel

/-- Cache mode, from the header: `enum QueryCacheMode`. -/
inductive QueryCacheMode where
  | CACHE_ALWAYS_OFF
  | CACHE_ALWAYS_ON
  | CACHE_ON_DEMAND
deriving Repr, DecidableEq

/-- One cached query result, from the header's `QueryCacheResultEntry`.
The opaque velocypack payloads (`_queryResult`, `_stats`) are embedded as
opaque numeric handles; the intrusive `_prev`/`_next` pointers are
represented by the owning database entry's insertion-order list. -/
structure QueryCacheResultEntry where
  hash : Nat
  queryString : String
  queryResult : Nat
  stats : Nat
  dataSources : List String
deriving Repr, DecidableEq

section AssocHelpers

variable {α : Type} {β : Type} [DecidableEq α]

/-- First value stored under key `k` in an association list
(models `unordered_map::find`). -/
def assocFind (k : α) : List (α × β) → Option β
  | [] => none
  | (k', v) :: rest => if k' = k then some v else assocFind k rest

/-- Remove every pair whose key is `k` (models `unordered_map::erase`;
with duplicate-free keys exactly one pair is removed). -/
def assocErase (k : α) : List (α × β) → List (α × β)
  | [] => []
  | (k', v) :: rest =>
      if k' = k then assocErase k rest else (k', v) :: assocErase k rest

/-- Replace the value stored under key `k`, leaving the key set unchanged. -/
def assocUpdate (k : α) (v : β) : List (α × β) → List (α × β)
  | [] => []
  | (k', v') :: rest =>
      if k' = k then (k, v) :: assocUpdate k v rest
      else (k', v') :: assocUpdate k v rest

/-- Keys of an association list. -/
def assocKeys (l : List (α × β)) : List α :=
  l.map Prod.fst

/-- Add `h` to a duplicate-free list if absent (models
`unordered_set::insert`). -/
def setInsert (h : Nat) (s : List Nat) : List Nat :=
  if h ∈ s then s else s ++ [h]

end AssocHelpers

/-- The per-database cache, from the header's `QueryCacheDatabaseEntry`:
`_entriesByHash`, `_entriesByDataSource`, the intrusive list
(`_head`/`_tail`, here `order`, oldest first) and `_numElements`. -/
structure QueryCacheDatabaseEntry where
  entriesByHash : List (Nat × QueryCacheResultEntry)
  entriesByDataSource : List (String × List Nat)
  order : List Nat
  numElements : Nat
deriving Repr, DecidableEq

namespace QueryCacheDatabaseEntry

/-- Modelled from the spec: a freshly constructed database-specific cache
is empty (`QueryCacheDatabaseEntry()` with null list pointers and zero
elements). -/
def empty : QueryCacheDatabaseEntry :=
  { entriesByHash := []
    entriesByDataSource := []
    order := []
    numElements := 0 }

/-- Modelled from the spec: `lookup(hash, queryText)` — look up `hash` in
`entriesByHash`; miss when absent; on a key match compare the stored
entry's query text and treat a mismatch (hash collision) as a miss, never
an error. The body of `QueryCacheDatabaseEntry::lookup` is not in the
sources. -/
def lookup (d : QueryCacheDatabaseEntry) (hash : Nat) (queryString : String) :
    Option QueryCacheResultEntry :=
  match assocFind hash d.entriesByHash with
  | none => none
  | some entry => if entry.queryString = queryString then some entry else none

/-- Modelled from the spec: remove the hash from one data source's
reverse-index set; the key is dropped once its set is empty (the design
document's invalidation test expects a fully scrubbed data source to be
absent afterwards). -/
def dsRemove (ds : String) (hash : Nat) (m : List (String × List Nat)) :
    List (String × List Nat) :=
  match assocFind ds m with
  | none => m
  | some s =>
      if s.filter (fun h => h ≠ hash) = [] then assocErase ds m
      else assocUpdate ds (s.filter (fun h => h ≠ hash)) m

/-- Modelled from the spec: register `hash` under one data source's
reverse-index set, creating the set if absent. -/
def dsAdd (ds : String) (hash : Nat) (m : List (String × List Nat)) :
    List (String × List Nat) :=
  match assocFind ds m with
  | none => m ++ [(ds, [hash])]
  | some s => assocUpdate ds (setInsert hash s) m

/-- Modelled from the spec: the shared removal steps of invalidation and
eviction — erase the entry from `entriesByHash`, unlink it from the
ordering list, scrub its hash from all its data sources' reverse-index
sets, decrement `numElements`; defensively a no-op when the hash is not
present. -/
def removeByHash (hash : Nat) (d : QueryCacheDatabaseEntry) :
    QueryCacheDatabaseEntry :=
  match assocFind hash d.entriesByHash with
  | none => d
  | some entry =>
      { entriesByHash := assocErase hash d.entriesByHash
        entriesByDataSource :=
          entry.dataSources.foldl (fun m ds => dsRemove ds hash m)
            d.entriesByDataSource
        order := d.order.filter (fun h => h ≠ hash)
        numElements := d.numElements - 1 }

/-- Modelled from the spec: `store(hash, entry)` — guard against a hash
that is already present by overwriting cleanly via remove-then-insert
(never leaking the prior entry's list linkage); insert into
`entriesByHash`, register the hash under every data source's
reverse-index set, `link` the entry at the tail of the ordering list and
increment `numElements`. -/
def store (hash : Nat) (entry : QueryCacheResultEntry)
    (d : QueryCacheDatabaseEntry) : QueryCacheDatabaseEntry :=
  let d' := removeByHash hash d
  { entriesByHash := (hash, entry) :: d'.entriesByHash
    entriesByDataSource :=
      entry.dataSources.foldl (fun m ds => dsAdd ds hash m)
        d'.entriesByDataSource
    order := d'.order ++ [hash]
    numElements := d'.numElements + 1 }

/-- Modelled from the spec: `invalidate(dataSource)` — when the data
source exists in `entriesByDataSource`, take its hash set, remove every
dependent entry, then erase the processed data source's reverse-index set
entirely; unknown identifiers are a no-op, not an error. -/
def invalidateOne (ds : String) (d : QueryCacheDatabaseEntry) :
    QueryCacheDatabaseEntry :=
  match assocFind ds d.entriesByDataSource with
  | none => d
  | some hashes =>
      let d' := hashes.foldl (fun acc h => removeByHash h acc) d
      { d' with entriesByDataSource := assocErase ds d'.entriesByDataSource }

/-- Modelled from the spec: `invalidate(dataSources)` — invalidate each
data source of the input in turn. -/
def invalidate (dataSources : List String) (d : QueryCacheDatabaseEntry) :
    QueryCacheDatabaseEntry :=
  dataSources.foldl (fun acc ds => invalidateOne ds acc) d

/-- Modelled from the spec: the loop of `enforceMaxResults` — while
`numElements > limit`, remove the entry at the head of the ordering list
(oldest-inserted) with the shared removal steps. The fuel argument bounds
the iteration count of the C++ `while` loop; `numElements` iterations
always suffice. -/
def enforceLoop (limit : Nat) : Nat → QueryCacheDatabaseEntry → QueryCacheDatabaseEntry
  | 0, d => d
  | fuel + 1, d =>
      if d.numElements ≤ limit then d
      else
        match d.order with
        | [] => d
        | h :: _ => enforceLoop limit fuel (removeByHash h d)

/-- Modelled from the spec: `enforceMaxResults(limit)`. -/
def enforceMaxResults (limit : Nat) (d : QueryCacheDatabaseEntry) :
    QueryCacheDatabaseEntry :=
  enforceLoop limit d.numElements d

/-- Modelled from the spec: whole-database `invalidate()` — clear
`entriesByHash`, `entriesByDataSource`, the list pointers and
`numElements` in one step. -/
def invalidateAll (_d : QueryCacheDatabaseEntry) : QueryCacheDatabaseEntry :=
  empty

end QueryCacheDatabaseEntry

/-- The engine, from the header's `QueryCache`: the global `mode` and
`maxResults` properties and the per-database caches (`_entries`, keyed by
the `TRI_vocbase_t*` database handle, embedded as a numeric identifier).
The eight lock partitions only shard this map for concurrency and are not
part of the functional state. -/
structure QueryCache where
  mode : QueryCacheMode
  maxResults : Nat
  entries : List (Nat × QueryCacheDatabaseEntry)
deriving Repr, DecidableEq

namespace QueryCache

/-- Modelled from the spec: `lookup(database, hash, queryText)` — when
`mode == ALWAYS_OFF` short-circuit to a miss; otherwise delegate to the
database's cache, a miss when that database has no cache yet. Returned
together with the (unchanged) engine state, mirroring the imperative
call. -/
def lookup (qc : QueryCache) (db : Nat) (hash : Nat) (queryString : String) :
    QueryCache × Option QueryCacheResultEntry :=
  if qc.mode = QueryCacheMode.CACHE_ALWAYS_OFF then (qc, none)
  else
    match assocFind db qc.entries with
    | none => (qc, none)
    | some d => (qc, d.lookup hash queryString)

/-- Modelled from the spec: `store(database, hash, queryText, result,
stats, dataSources)` — a no-op when `mode == ALWAYS_OFF`; otherwise
get-or-create the database's cache, construct the result entry, delegate
to the database-level `store`, then enforce the configured ceiling. -/
def store (qc : QueryCache) (db : Nat) (hash : Nat) (queryString : String)
    (result : Nat) (stats : Nat) (dataSources : List String) : QueryCache :=
  if qc.mode = QueryCacheMode.CACHE_ALWAYS_OFF then qc
  else
    let entry : QueryCacheResultEntry :=
      { hash := hash, queryString := queryString, queryResult := result
        stats := stats, dataSources := dataSources }
    let d := (assocFind db qc.entries).getD QueryCacheDatabaseEntry.empty
    let d := d.store hash entry
    let d := d.enforceMaxResults qc.maxResults
    { qc with entries := (db, d) :: assocErase db qc.entries }

/-- Modelled from the spec: `invalidate(database, dataSources)` — no-op
when the database has no cache yet. -/
def invalidate (qc : QueryCache) (db : Nat) (dataSources : List String) :
    QueryCache :=
  match assocFind db qc.entries with
  | none => qc
  | some d =>
      { qc with
        entries :=
          (db, QueryCacheDatabaseEntry.invalidate dataSources d) ::
            assocErase db qc.entries }

/-- Modelled from the spec: `setMode(mode)` — update the mode under the
properties lock; does not itself clear existing entries. -/
def setMode (m : QueryCacheMode) (qc : QueryCache) : QueryCache :=
  { qc with mode := m }

/-- Modelled from the spec: `setMaxResults(limit)` — update the stored
ceiling, then invoke `enforceMaxResults(limit)` on every database's
cache. -/
def setMaxResults (n : Nat) (qc : QueryCache) : QueryCache :=
  { qc with
    maxResults := n
    entries := qc.entries.map (fun p => (p.1, p.2.enforceMaxResults n)) }

/-- Modelled from the spec: global `invalidate()` — destroy every
database's cache. -/
def invalidateGlobal (qc : QueryCache) : QueryCache :=
  { qc with entries := [] }

end QueryCache

/-- `h` is registered under data source `ds` in a reverse index `m`:
`ds` has a set in `m` and `h` belongs to it. -/
def registered (ds : String) (h : Nat) (m : List (String × List Nat)) : Prop :=
  ∃ s, assocFind ds m = some s ∧ h ∈ s

/-- The structural invariants of `QueryCacheDatabaseEntry`: the element
count matches both the hash table and the ordering list; keys and list
are duplicate-free; an entry is reachable from `entriesByHash` exactly
when it is linked into the list; and the reverse index is exact — a hash
is registered under a data source precisely for entries naming that data
source. -/
structure WellFormed (d : QueryCacheDatabaseEntry) : Prop where
  size_hash : d.numElements = d.entriesByHash.length
  size_order : d.numElements = d.order.length
  nodup_keys : (assocKeys d.entriesByHash).Nodup
  nodup_order : d.order.Nodup
  mem_order_iff : ∀ h, h ∈ assocKeys d.entriesByHash ↔ h ∈ d.order
  reg_exact : ∀ ds h, registered ds h d.entriesByDataSource →
    ∃ e, assocFind h d.entriesByHash = some e ∧ ds ∈ e.dataSources
  entry_reg : ∀ h e, assocFind h d.entriesByHash = some e →
    ∀ ds ∈ e.dataSources, registered ds h d.entriesByDataSource

/-- States of a database-specific cache reachable from the freshly
constructed cache by the operations declared in the header. -/
inductive Reachable : QueryCacheDatabaseEntry → Prop where
  | init : Reachable QueryCacheDatabaseEntry.empty
  | store (hash : Nat) (entry : QueryCacheResultEntry)
      {d : QueryCacheDatabaseEntry} :
      Reachable d → Reachable (QueryCacheDatabaseEntry.store hash entry d)
  | invalidate (dss : List String) {d : QueryCacheDatabaseEntry} :
      Reachable d → Reachable (QueryCacheDatabaseEntry.invalidate dss d)
  | invalidateAll {d : QueryCacheDatabaseEntry} :
      Reachable d → Reachable (QueryCacheDatabaseEntry.invalidateAll d)
  | enforce (limit : Nat) {d : QueryCacheDatabaseEntry} :
      Reachable d →
      Reachable (QueryCacheDatabaseEntry.enforceMaxResults limit d)

/-! ### Concrete states for the design document's test scenarios -/

/-- An entry depending on two data sources, for the invalidation-cascade
scenario. -/
def entryXY : QueryCacheResultEntry :=
  { hash := 1, queryString := "q", queryResult := 0, stats := 0
    dataSources := ["X", "Y"] }

/-- A database cache holding only `entryXY`. -/
def dXY : QueryCacheDatabaseEntry :=
  QueryCacheDatabaseEntry.store 1 entryXY QueryCacheDatabaseEntry.empty

/-- An engine with a ceiling of two results and the cache enabled. -/
def qcCeil2 : QueryCache :=
  { mode := QueryCacheMode.CACHE_ALWAYS_ON, maxResults := 2, entries := [] }

/-- The ceiling-two engine after storing three entries with distinct
hashes, in order 1, 2, 3, on database 7. -/
def qcThree : QueryCache :=
  ((qcCeil2.store 7 1 "Q1" 11 0 ["X"]).store 7 2 "Q2" 12 0 ["X"]).store
    7 3 "Q3" 13 0 ["X"]

/-- An engine that is switched off but configured with a ceiling. -/
def qcOff : QueryCache :=
  { mode := QueryCacheMode.CACHE_ALWAYS_OFF, maxResults := 128, entries := [] }

/-- An enabled engine holding the one-entry database cache under
database identifier 5. -/
def qcOne : QueryCache :=
  { mode := QueryCacheMode.CACHE_ALWAYS_ON, maxResults := 10
    entries := [(5, dXY)] }

/-! ### Association-list lemmas -/

section AssocLemmas

variable {α β γ : Type} [DecidableEq α]

theorem assocFind_cons (k k' : α) (v : β) (l : List (α × β)) :
    assocFind k ((k', v) :: l) = if k' = k then some v else assocFind k l := rfl

theorem assocKeys_cons (a : α) (b : β) (t : List (α × β)) :
    assocKeys ((a, b) :: t) = a :: assocKeys t := rfl

theorem assocErase_cons (k a : α) (b : β) (t : List (α × β)) :
    assocErase k ((a, b) :: t) =
      if a = k then assocErase k t else (a, b) :: assocErase k t := rfl

theorem assocUpdate_cons (k a : α) (v b : β) (t : List (α × β)) :
    assocUpdate k v ((a, b) :: t) =
      if a = k then (k, v) :: assocUpdate k v t
      else (a, b) :: assocUpdate k v t := rfl

theorem mem_assocKeys {k : α} {l : List (α × β)} :
    k ∈ assocKeys l ↔ ∃ v, assocFind k l = some v := by
  induction l with
  | nil => simp [assocKeys, assocFind]
  | cons p t ih =>
    obtain ⟨a, b⟩ := p
    by_cases hak : a = k
    · subst hak
      simp [assocKeys, assocFind]
    · have hka : ¬ k = a := fun hh => hak hh.symm
      rw [assocKeys_cons, List.mem_cons, assocFind_cons, if_neg hak]
      simp [hka, ih]

theorem assocFind_eq_none {k : α} {l : List (α × β)} :
    assocFind k l = none ↔ k ∉ assocKeys l := by
  rw [mem_assocKeys]
  cases h : assocFind k l <;> simp [h]

theorem assocFind_erase_self (k : α) (l : List (α × β)) :
    assocFind k (assocErase k l) = none := by
  induction l with
  | nil => rfl
  | cons p t ih =>
    obtain ⟨a, b⟩ := p
    by_cases hak : a = k
    · rw [assocErase_cons, if_pos hak]
      exact ih
    · rw [assocErase_cons, if_neg hak, assocFind_cons, if_neg hak]
      exact ih

theorem assocFind_erase_ne {k k' : α} (l : List (α × β)) (h : k' ≠ k) :
    assocFind k' (assocErase k l) = assocFind k' l := by
  induction l with
  | nil => rfl
  | cons p t ih =>
    obtain ⟨a, b⟩ := p
    by_cases hak : a = k
    · have hak' : ¬ a = k' := fun hh => h (hh.symm.trans hak)
      rw [assocErase_cons, if_pos hak, ih, assocFind_cons, if_neg hak']
    · rw [assocErase_cons, if_neg hak, assocFind_cons, assocFind_cons]
      by_cases hak' : a = k' <;> simp [hak', ih]

theorem assocKeys_erase (k : α) (l : List (α × β)) :
    assocKeys (assocErase k l) = (assocKeys l).filter (fun x => x ≠ k) := by
  induction l with
  | nil => rfl
  | cons p t ih =>
    obtain ⟨a, b⟩ := p
    by_cases hak : a = k <;> simp [assocErase, assocKeys, hak] at ih ⊢ <;> exact ih

theorem assocErase_of_not_mem {k : α} {l : List (α × β)}
    (h : k ∉ assocKeys l) : assocErase k l = l := by
  induction l with
  | nil => rfl
  | cons p t ih =>
    obtain ⟨a, b⟩ := p
    have h1 : ¬ k = a ∧ k ∉ assocKeys t := by simpa [assocKeys] using h
    have hak : ¬ a = k := fun hh => h1.1 hh.symm
    simp [assocErase, hak, ih h1.2]

theorem assocErase_length {k : α} {l : List (α × β)}
    (hnd : (assocKeys l).Nodup) (hk : k ∈ assocKeys l) :
    (assocErase k l).length + 1 = l.length := by
  induction l with
  | nil => simp [assocKeys] at hk
  | cons p t ih =>
    obtain ⟨a, b⟩ := p
    have hnd' : a ∉ assocKeys t ∧ (assocKeys t).Nodup := by
      simpa [assocKeys] using hnd
    by_cases hak : a = k
    · subst hak
      have herase : assocErase a t = t := assocErase_of_not_mem hnd'.1
      simp [assocErase, herase]
    · have hkt : k ∈ assocKeys t := by
        rcases (by simpa [assocKeys] using hk : k = a ∨ k ∈ assocKeys t) with hk' | hk'
        · exact absurd hk'.symm hak
        · exact hk'
      have := ih hnd'.2 hkt
      simp [assocErase, hak]
      omega

theorem assocFind_update_self (k : α) (v : β) (l : List (α × β)) :
    assocFind k (assocUpdate k v l) = (assocFind k l).map (fun _ => v) := by
  induction l with
  | nil => rfl
  | cons p t ih =>
    obtain ⟨a, b⟩ := p
    by_cases hak : a = k
    · rw [assocUpdate_cons, if_pos hak, assocFind_cons, if_pos rfl,
        assocFind_cons, if_pos hak]
      rfl
    · rw [assocUpdate_cons, if_neg hak, assocFind_cons, if_neg hak,
        assocFind_cons, if_neg hak]
      exact ih

theorem assocFind_update_ne {k k' : α} (v : β) (l : List (α × β)) (h : k' ≠ k) :
    assocFind k' (assocUpdate k v l) = assocFind k' l := by
  induction l with
  | nil => rfl
  | cons p t ih =>
    obtain ⟨a, b⟩ := p
    by_cases hak : a = k
    · have hkk' : ¬ k = k' := fun hh => h hh.symm
      have hak' : ¬ a = k' := fun hh => h (hh.symm.trans hak)
      rw [assocUpdate_cons, if_pos hak, assocFind_cons, if_neg hkk', ih,
        assocFind_cons, if_neg hak']
    · rw [assocUpdate_cons, if_neg hak, assocFind_cons, assocFind_cons]
      by_cases hak' : a = k' <;> simp [hak', ih]

theorem assocKeys_update (k : α) (v : β) (l : List (α × β)) :
    assocKeys (assocUpdate k v l) = assocKeys l := by
  induction l with
  | nil => rfl
  | cons p t ih =>
    obtain ⟨a, b⟩ := p
    by_cases hak : a = k
    · rw [assocUpdate_cons, if_pos hak, assocKeys_cons, assocKeys_cons, ih, hak]
    · rw [assocUpdate_cons, if_neg hak, assocKeys_cons, assocKeys_cons, ih]

theorem assocFind_append_some {k : α} {v : β} {l l₂ : List (α × β)}
    (h : assocFind k l = some v) : assocFind k (l ++ l₂) = some v := by
  induction l with
  | nil => simp [assocFind] at h
  | cons p t ih =>
    obtain ⟨a, b⟩ := p
    by_cases hak : a = k
    · simpa [assocFind, hak] using h
    · simp [assocFind, hak] at h ⊢
      exact ih h

theorem assocFind_append_none {k : α} {l l₂ : List (α × β)}
    (h : assocFind k l = none) : assocFind k (l ++ l₂) = assocFind k l₂ := by
  induction l with
  | nil => simp [assocFind]
  | cons p t ih =>
    obtain ⟨a, b⟩ := p
    by_cases hak : a = k
    · simp [assocFind, hak] at h
    · simp [assocFind, hak] at h ⊢
      exact ih h

theorem assocFind_map_value (f : β → γ) (k : α) (l : List (α × β)) :
    assocFind k (l.map (fun p => (p.1, f p.2))) = (assocFind k l).map f := by
  induction l with
  | nil => rfl
  | cons p t ih =>
    obtain ⟨a, b⟩ := p
    by_cases hak : a = k
    · simp [assocFind, hak]
    · simpa [assocFind, hak] using ih

theorem mem_setInsert {h h' : Nat} {s : List Nat} :
    h' ∈ setInsert h s ↔ h' ∈ s ∨ h' = h := by
  by_cases hm : h ∈ s
  · simp only [setInsert, if_pos hm]
    constructor
    · exact Or.inl
    · rintro (hs | rfl)
      · exact hs
      · exact hm
  · simp [setInsert, if_neg hm]

end AssocLemmas

/-! ### Reverse-index lemmas -/

namespace QueryCacheDatabaseEntry

theorem dsRemove_eq_none {ds : String} {m : List (String × List Nat)}
    (hash : Nat) (h : assocFind ds m = none) : dsRemove ds hash m = m := by
  unfold dsRemove
  rw [h]

theorem dsRemove_eq_some {ds : String} {m : List (String × List Nat)}
    {s : List Nat} (hash : Nat) (h : assocFind ds m = some s) :
    dsRemove ds hash m =
      if s.filter (fun x => x ≠ hash) = [] then assocErase ds m
      else assocUpdate ds (s.filter (fun x => x ≠ hash)) m := by
  unfold dsRemove
  rw [h]

theorem dsAdd_eq_none {ds : String} {m : List (String × List Nat)}
    (hash : Nat) (h : assocFind ds m = none) :
    dsAdd ds hash m = m ++ [(ds, [hash])] := by
  unfold dsAdd
  rw [h]

theorem dsAdd_eq_some {ds : String} {m : List (String × List Nat)}
    {s : List Nat} (hash : Nat) (h : assocFind ds m = some s) :
    dsAdd ds hash m = assocUpdate ds (setInsert hash s) m := by
  unfold dsAdd
  rw [h]

theorem registered_dsRemove {ds' : String} {h' : Nat} (ds : String) (hash : Nat)
    (m : List (String × List Nat)) :
    registered ds' h' (dsRemove ds hash m) ↔
      registered ds' h' m ∧ ¬(ds' = ds ∧ h' = hash) := by
  cases hfind : assocFind ds m with
  | none =>
    rw [dsRemove_eq_none hash hfind]
    constructor
    · intro hreg
      refine ⟨hreg, ?_⟩
      rintro ⟨rfl, rfl⟩
      obtain ⟨s, hs, _⟩ := hreg
      rw [hfind] at hs
      exact Option.noConfusion hs
    · exact fun h => h.1
  | some s =>
    rw [dsRemove_eq_some hash hfind]
    by_cases hemp : s.filter (fun x => x ≠ hash) = []
    · rw [if_pos hemp]
      by_cases hds : ds' = ds
      · subst hds
        constructor
        · intro ⟨s', hs', _⟩
          rw [assocFind_erase_self] at hs'
          exact Option.noConfusion hs'
        · rintro ⟨⟨s', hs', hmem⟩, hne⟩
          rw [hfind] at hs'
          obtain rfl := Option.some.inj hs'
          have hne' : h' ≠ hash := fun hh => hne ⟨rfl, hh⟩
          have : h' ∈ s.filter (fun h => h ≠ hash) := by
            simp [List.mem_filter, hmem, hne']
          rw [hemp] at this
          exact absurd this (List.not_mem_nil h')
      · unfold registered
        rw [assocFind_erase_ne _ hds]
        constructor
        · intro hreg
          exact ⟨hreg, fun hh => hds hh.1⟩
        · exact fun h => h.1
    · rw [if_neg hemp]
      by_cases hds : ds' = ds
      · subst hds
        unfold registered
        rw [assocFind_update_self, hfind]
        simp [List.mem_filter]
      · unfold registered
        rw [assocFind_update_ne _ _ hds]
        constructor
        · intro hreg
          exact ⟨hreg, fun hh => hds hh.1⟩
        · exact fun h => h.1

theorem registered_dsAdd {ds' : String} {h' : Nat} (ds : String) (hash : Nat)
    (m : List (String × List Nat)) :
    registered ds' h' (dsAdd ds hash m) ↔
      registered ds' h' m ∨ (ds' = ds ∧ h' = hash) := by
  cases hfind : assocFind ds m with
  | none =>
    rw [dsAdd_eq_none hash hfind]
    by_cases hds : ds' = ds
    · subst hds
      unfold registered
      rw [assocFind_append_none hfind, assocFind_cons, if_pos rfl]
      constructor
      · rintro ⟨s', hs', hmem⟩
        obtain rfl := Option.some.inj hs'
        right
        exact ⟨rfl, by simpa using hmem⟩
      · rintro (⟨s', hs', _⟩ | ⟨-, rfl⟩)
        · rw [hfind] at hs'
          exact Option.noConfusion hs'
        · exact ⟨_, rfl, by simp⟩
    · unfold registered
      cases hfind' : assocFind ds' m with
      | none =>
        rw [assocFind_append_none hfind', assocFind_cons,
          if_neg (fun hh => hds hh.symm)]
        simp [assocFind, hds, hfind']
      | some s' =>
        rw [assocFind_append_some hfind']
        simp [hds]
  | some s =>
    rw [dsAdd_eq_some hash hfind]
    by_cases hds : ds' = ds
    · subst hds
      unfold registered
      rw [assocFind_update_self, hfind]
      simp [mem_setInsert]
    · unfold registered
      rw [assocFind_update_ne _ _ hds]
      simp [hds]

theorem registered_foldRemove {ds' : String} {h' : Nat} (L : List String)
    (hash : Nat) (m : List (String × List Nat)) :
    registered ds' h' (L.foldl (fun m ds => dsRemove ds hash m) m) ↔
      registered ds' h' m ∧ ¬(ds' ∈ L ∧ h' = hash) := by
  induction L generalizing m with
  | nil => simp
  | cons x rest ih =>
    rw [List.foldl_cons, ih, registered_dsRemove]
    constructor
    · rintro ⟨⟨hreg, hx⟩, hrest⟩
      refine ⟨hreg, ?_⟩
      rintro ⟨hmem, rfl⟩
      rcases List.mem_cons.mp hmem with rfl | hmem'
      · exact hx ⟨rfl, rfl⟩
      · exact hrest ⟨hmem', rfl⟩
    · rintro ⟨hreg, hnot⟩
      refine ⟨⟨hreg, ?_⟩, ?_⟩
      · rintro ⟨rfl, rfl⟩
        exact hnot ⟨List.mem_cons_self _ _, rfl⟩
      · rintro ⟨hmem', rfl⟩
        exact hnot ⟨List.mem_cons_of_mem _ hmem', rfl⟩

theorem registered_foldAdd {ds' : String} {h' : Nat} (L : List String)
    (hash : Nat) (m : List (String × List Nat)) :
    registered ds' h' (L.foldl (fun m ds => dsAdd ds hash m) m) ↔
      registered ds' h' m ∨ (ds' ∈ L ∧ h' = hash) := by
  induction L generalizing m with
  | nil => simp
  | cons x rest ih =>
    rw [List.foldl_cons, ih, registered_dsAdd]
    constructor
    · rintro ((hreg | ⟨rfl, rfl⟩) | ⟨hmem, rfl⟩)
      · exact Or.inl hreg
      · exact Or.inr ⟨List.mem_cons_self _ _, rfl⟩
      · exact Or.inr ⟨List.mem_cons_of_mem _ hmem, rfl⟩
    · rintro (hreg | ⟨hmem, rfl⟩)
      · exact Or.inl (Or.inl hreg)
      · rcases List.mem_cons.mp hmem with rfl | hmem'
        · exact Or.inl (Or.inr ⟨rfl, rfl⟩)
        · exact Or.inr ⟨hmem', rfl⟩

end QueryCacheDatabaseEntry

/-! ### Structural invariants of a database-specific cache -/

theorem filter_ne_length {l : List Nat} {a : Nat} (hnd : l.Nodup) (ha : a ∈ l) :
    (l.filter (fun x => x ≠ a)).length + 1 = l.length := by
  have h1 : l.erase a = l.filter (fun x => x ≠ a) := by
    simpa using hnd.erase_eq_filter a
  rw [← h1, List.length_erase_add_one ha]

namespace QueryCacheDatabaseEntry

theorem wf_empty : WellFormed empty := by
  refine ⟨rfl, rfl, List.nodup_nil, List.nodup_nil, ?_, ?_, ?_⟩
  · intro h
    simp [empty, assocKeys]
  · rintro ds h ⟨s, hs, -⟩
    simp [empty, assocFind] at hs
  · intro h e he
    simp [empty, assocFind] at he

theorem removeByHash_eq_none {hash : Nat} {d : QueryCacheDatabaseEntry}
    (h : assocFind hash d.entriesByHash = none) : removeByHash hash d = d := by
  unfold removeByHash
  rw [h]

theorem removeByHash_eq_some {hash : Nat} {d : QueryCacheDatabaseEntry}
    {entry : QueryCacheResultEntry}
    (h : assocFind hash d.entriesByHash = some entry) :
    removeByHash hash d =
      { entriesByHash := assocErase hash d.entriesByHash
        entriesByDataSource :=
          entry.dataSources.foldl (fun m ds => dsRemove ds hash m)
            d.entriesByDataSource
        order := d.order.filter (fun h => h ≠ hash)
        numElements := d.numElements - 1 } := by
  unfold removeByHash
  rw [h]

theorem removeByHash_find (hash h' : Nat) (d : QueryCacheDatabaseEntry) :
    assocFind h' (removeByHash hash d).entriesByHash =
      if h' = hash then none else assocFind h' d.entriesByHash := by
  cases hfind : assocFind hash d.entriesByHash with
  | none =>
    rw [removeByHash_eq_none hfind]
    by_cases hh : h' = hash
    · subst hh
      rw [if_pos rfl, hfind]
    · rw [if_neg hh]
  | some entry =>
    rw [removeByHash_eq_some hfind]
    by_cases hh : h' = hash
    · subst hh
      rw [if_pos rfl]
      exact assocFind_erase_self _ _
    · rw [if_neg hh]
      exact assocFind_erase_ne _ hh

theorem removeByHash_registered {d : QueryCacheDatabaseEntry}
    (hwf : WellFormed d) (hash : Nat) (ds' : String) (h' : Nat) :
    registered ds' h' (removeByHash hash d).entriesByDataSource ↔
      registered ds' h' d.entriesByDataSource ∧ h' ≠ hash := by
  cases hfind : assocFind hash d.entriesByHash with
  | none =>
    rw [removeByHash_eq_none hfind]
    constructor
    · intro hreg
      refine ⟨hreg, ?_⟩
      rintro rfl
      obtain ⟨e, he, -⟩ := hwf.reg_exact ds' h' hreg
      rw [hfind] at he
      exact Option.noConfusion he
    · exact fun h => h.1
  | some entry =>
    have hD : (removeByHash hash d).entriesByDataSource =
        entry.dataSources.foldl (fun m ds => dsRemove ds hash m)
          d.entriesByDataSource := by
      rw [removeByHash_eq_some hfind]
    rw [hD, registered_foldRemove]
    constructor
    · rintro ⟨hreg, hnot⟩
      refine ⟨hreg, ?_⟩
      rintro rfl
      obtain ⟨e, he, hds⟩ := hwf.reg_exact ds' h' hreg
      rw [hfind] at he
      obtain rfl := Option.some.inj he
      exact hnot ⟨hds, rfl⟩
    · rintro ⟨hreg, hne⟩
      exact ⟨hreg, fun hc => hne hc.2⟩

theorem wf_removeByHash {d : QueryCacheDatabaseEntry} (hwf : WellFormed d)
    (hash : Nat) : WellFormed (removeByHash hash d) := by
  cases hfind : assocFind hash d.entriesByHash with
  | none =>
    rw [removeByHash_eq_none hfind]
    exact hwf
  | some entry =>
    have hkey : hash ∈ assocKeys d.entriesByHash := mem_assocKeys.mpr ⟨_, hfind⟩
    have horder : hash ∈ d.order := (hwf.mem_order_iff hash).mp hkey
    have hE : (removeByHash hash d).entriesByHash =
        assocErase hash d.entriesByHash := by
      rw [removeByHash_eq_some hfind]
    have hO : (removeByHash hash d).order =
        d.order.filter (fun x => x ≠ hash) := by
      rw [removeByHash_eq_some hfind]
    have hN : (removeByHash hash d).numElements = d.numElements - 1 := by
      rw [removeByHash_eq_some hfind]
    refine ⟨?_, ?_, ?_, ?_, ?_, ?_, ?_⟩
    · rw [hN, hE]
      have h1 := assocErase_length hwf.nodup_keys hkey
      have h2 := hwf.size_hash
      omega
    · rw [hN, hO]
      have h1 := filter_ne_length hwf.nodup_order horder
      have h2 := hwf.size_order
      omega
    · rw [hE, assocKeys_erase]
      exact hwf.nodup_keys.filter _
    · rw [hO]
      exact hwf.nodup_order.filter _
    · intro h'
      rw [hE, hO, assocKeys_erase]
      simp [List.mem_filter, hwf.mem_order_iff h']
    · intro ds h' hreg
      rw [removeByHash_registered hwf hash] at hreg
      obtain ⟨hregd, hne⟩ := hreg
      obtain ⟨e, he, hds⟩ := hwf.reg_exact ds h' hregd
      refine ⟨e, ?_, hds⟩
      rw [removeByHash_find, if_neg hne]
      exact he
    · intro h' e' hfe ds hds
      rw [removeByHash_find] at hfe
      by_cases hne : h' = hash
      · rw [if_pos hne] at hfe
        exact Option.noConfusion hfe
      · rw [if_neg hne] at hfe
        exact (removeByHash_registered hwf hash ds h').mpr
          ⟨hwf.entry_reg h' e' hfe ds hds, hne⟩

theorem store_entriesByHash (hash : Nat) (entry : QueryCacheResultEntry)
    (d : QueryCacheDatabaseEntry) :
    (store hash entry d).entriesByHash =
      (hash, entry) :: (removeByHash hash d).entriesByHash := rfl

theorem store_entriesByDataSource (hash : Nat) (entry : QueryCacheResultEntry)
    (d : QueryCacheDatabaseEntry) :
    (store hash entry d).entriesByDataSource =
      entry.dataSources.foldl (fun m ds => dsAdd ds hash m)
        (removeByHash hash d).entriesByDataSource := rfl

theorem store_order (hash : Nat) (entry : QueryCacheResultEntry)
    (d : QueryCacheDatabaseEntry) :
    (store hash entry d).order = (removeByHash hash d).order ++ [hash] := rfl

theorem store_numElements (hash : Nat) (entry : QueryCacheResultEntry)
    (d : QueryCacheDatabaseEntry) :
    (store hash entry d).numElements =
      (removeByHash hash d).numElements + 1 := rfl

theorem wf_store {d : QueryCacheDatabaseEntry} (hwf : WellFormed d)
    (hash : Nat) (entry : QueryCacheResultEntry) :
    WellFormed (store hash entry d) := by
  have hwf' := wf_removeByHash hwf hash
  have hnone : assocFind hash (removeByHash hash d).entriesByHash = none := by
    rw [removeByHash_find, if_pos rfl]
  have hkeys : hash ∉ assocKeys (removeByHash hash d).entriesByHash :=
    assocFind_eq_none.mp hnone
  have horder : hash ∉ (removeByHash hash d).order := fun hmem =>
    hkeys ((hwf'.mem_order_iff hash).mpr hmem)
  refine ⟨?_, ?_, ?_, ?_, ?_, ?_, ?_⟩
  · rw [store_numElements, store_entriesByHash]
    simp [hwf'.size_hash]
  · rw [store_numElements, store_order]
    simp [hwf'.size_order]
  · rw [store_entriesByHash, assocKeys_cons]
    exact List.nodup_cons.mpr ⟨hkeys, hwf'.nodup_keys⟩
  · rw [store_order, List.nodup_append]
    refine ⟨hwf'.nodup_order, List.nodup_singleton _, ?_⟩
    intro a ha hb
    rw [List.mem_singleton] at hb
    subst hb
    exact horder ha
  · intro h'
    rw [store_entriesByHash, store_order, assocKeys_cons]
    simp [List.mem_append, hwf'.mem_order_iff h', or_comm]
  · intro ds h' hreg
    rw [store_entriesByDataSource, registered_foldAdd] at hreg
    rcases hreg with hreg | ⟨hdsm, rfl⟩
    · obtain ⟨e, he, hds⟩ := hwf'.reg_exact ds h' hreg
      have hne : ¬ hash = h' := by
        rintro rfl
        rw [hnone] at he
        exact Option.noConfusion he
      refine ⟨e, ?_, hds⟩
      rw [store_entriesByHash, assocFind_cons, if_neg hne]
      exact he
    · refine ⟨entry, ?_, hdsm⟩
      rw [store_entriesByHash, assocFind_cons, if_pos rfl]
  · intro h' e' hfe ds hds
    rw [store_entriesByHash, assocFind_cons] at hfe
    rw [store_entriesByDataSource, registered_foldAdd]
    by_cases hh : hash = h'
    · rw [if_pos hh] at hfe
      obtain rfl := Option.some.inj hfe
      exact Or.inr ⟨hds, hh.symm⟩
    · rw [if_neg hh] at hfe
      exact Or.inl (hwf'.entry_reg h' e' hfe ds hds)

/-! ### Folded removals, invalidation and eviction -/

theorem wf_foldRemove (S : List Nat) {d : QueryCacheDatabaseEntry}
    (hwf : WellFormed d) :
    WellFormed (S.foldl (fun acc h => removeByHash h acc) d) := by
  induction S generalizing d with
  | nil => exact hwf
  | cons x t ih =>
    rw [List.foldl_cons]
    exact ih (wf_removeByHash hwf x)

theorem foldRemove_find_some {S : List Nat} {d : QueryCacheDatabaseEntry}
    {h : Nat} {e : QueryCacheResultEntry}
    (hf : assocFind h
      ((S.foldl (fun acc x => removeByHash x acc) d)).entriesByHash = some e) :
    assocFind h d.entriesByHash = some e ∧ h ∉ S := by
  induction S generalizing d with
  | nil => exact ⟨hf, List.not_mem_nil h⟩
  | cons x t ih =>
    rw [List.foldl_cons] at hf
    obtain ⟨hf', hnt⟩ := ih hf
    rw [removeByHash_find] at hf'
    by_cases hh : h = x
    · rw [if_pos hh] at hf'
      exact Option.noConfusion hf'
    · rw [if_neg hh] at hf'
      exact ⟨hf', by simp [List.mem_cons, hh, hnt]⟩

theorem foldRemove_find_none {S : List Nat} {d : QueryCacheDatabaseEntry}
    {h : Nat} (hmem : h ∈ S) :
    assocFind h (S.foldl (fun acc x => removeByHash x acc) d).entriesByHash =
      none := by
  cases hf : assocFind h
      (S.foldl (fun acc x => removeByHash x acc) d).entriesByHash with
  | none => rfl
  | some e => exact absurd hmem (foldRemove_find_some hf).2

theorem invalidateOne_eq_none {ds : String} {d : QueryCacheDatabaseEntry}
    (h : assocFind ds d.entriesByDataSource = none) :
    invalidateOne ds d = d := by
  unfold invalidateOne
  rw [h]

theorem invalidateOne_eq_some {ds : String} {d : QueryCacheDatabaseEntry}
    {S : List Nat} (h : assocFind ds d.entriesByDataSource = some S) :
    invalidateOne ds d =
      { S.foldl (fun acc h => removeByHash h acc) d with
        entriesByDataSource :=
          assocErase ds
            (S.foldl (fun acc h => removeByHash h acc) d).entriesByDataSource
      } := by
  unfold invalidateOne
  rw [h]

theorem wf_invalidateOne {d : QueryCacheDatabaseEntry} (hwf : WellFormed d)
    (ds : String) : WellFormed (invalidateOne ds d) := by
  cases hfind : assocFind ds d.entriesByDataSource with
  | none =>
    rw [invalidateOne_eq_none hfind]
    exact hwf
  | some S =>
    have hwf' := wf_foldRemove S hwf
    rw [invalidateOne_eq_some hfind]
    refine ⟨hwf'.size_hash, hwf'.size_order, hwf'.nodup_keys,
      hwf'.nodup_order, hwf'.mem_order_iff, ?_, ?_⟩
    · rintro ds' h' ⟨s, hs, hmem⟩
      by_cases hd : ds' = ds
      · rw [hd, assocFind_erase_self] at hs
        exact Option.noConfusion hs
      · rw [assocFind_erase_ne _ hd] at hs
        exact hwf'.reg_exact ds' h' ⟨s, hs, hmem⟩
    · intro h' e' hfe ds' hds'
      obtain ⟨hfd, hnS⟩ := foldRemove_find_some hfe
      have hreg' := hwf'.entry_reg h' e' hfe ds' hds'
      have hdne : ds' ≠ ds := by
        rintro rfl
        obtain ⟨s0, hs0, hm0⟩ := hwf.entry_reg h' e' hfd ds' hds'
        rw [hfind] at hs0
        obtain rfl := Option.some.inj hs0
        exact hnS hm0
      obtain ⟨s, hs, hm⟩ := hreg'
      exact ⟨s, by rw [assocFind_erase_ne _ hdne]; exact hs, hm⟩

theorem wf_invalidate {d : QueryCacheDatabaseEntry} (hwf : WellFormed d)
    (dss : List String) : WellFormed (invalidate dss d) := by
  unfold invalidate
  induction dss generalizing d with
  | nil => exact hwf
  | cons x t ih =>
    rw [List.foldl_cons]
    exact ih (wf_invalidateOne hwf x)

theorem wf_enforceLoop (limit : Nat) :
    ∀ (fuel : Nat) {d : QueryCacheDatabaseEntry}, WellFormed d →
      WellFormed (enforceLoop limit fuel d) := by
  intro fuel
  induction fuel with
  | zero => intro d hwf; exact hwf
  | succ n ih =>
    intro d hwf
    unfold enforceLoop
    by_cases hle : d.numElements ≤ limit
    · rw [if_pos hle]
      exact hwf
    · rw [if_neg hle]
      cases horder : d.order with
      | nil => exact hwf
      | cons h t => exact ih (wf_removeByHash hwf h)

theorem wf_enforceMaxResults {d : QueryCacheDatabaseEntry}
    (hwf : WellFormed d) (limit : Nat) :
    WellFormed (enforceMaxResults limit d) :=
  wf_enforceLoop limit d.numElements hwf

theorem wf_invalidateAll (d : QueryCacheDatabaseEntry) :
    WellFormed (invalidateAll d) := wf_empty

theorem enforceLoop_spec (limit : Nat) :
    ∀ (fuel : Nat) {d : QueryCacheDatabaseEntry}, WellFormed d →
      d.numElements ≤ fuel + limit →
      (enforceLoop limit fuel d).order =
          d.order.drop (d.numElements - limit) ∧
        (enforceLoop limit fuel d).numElements = min d.numElements limit := by
  intro fuel
  induction fuel with
  | zero =>
    intro d hwf hfuel
    have hle : d.numElements ≤ limit := by simpa using hfuel
    unfold enforceLoop
    refine ⟨?_, ?_⟩
    · rw [Nat.sub_eq_zero_of_le hle, List.drop_zero]
    · omega
  | succ n ih =>
    intro d hwf hfuel
    by_cases hle : d.numElements ≤ limit
    · unfold enforceLoop
      rw [if_pos hle]
      refine ⟨?_, ?_⟩
      · rw [Nat.sub_eq_zero_of_le hle, List.drop_zero]
      · omega
    · have hlen : d.order.length = d.numElements := (hwf.size_order).symm
      cases horder : d.order with
      | nil =>
        rw [horder] at hlen
        simp at hlen
        omega
      | cons h t =>
        unfold enforceLoop
        rw [if_neg hle, horder]
        have hkey : h ∈ assocKeys d.entriesByHash :=
          (hwf.mem_order_iff h).mpr (by rw [horder]; exact List.mem_cons_self _ _)
        obtain ⟨e, hfe⟩ := mem_assocKeys.mp hkey
        have hwfr := wf_removeByHash hwf h
        have hnt : h ∉ t := by
          have hnd := hwf.nodup_order
          rw [horder] at hnd
          exact (List.nodup_cons.mp hnd).1
        have hOr : (removeByHash h d).order = t := by
          have heq : (removeByHash h d).order =
              d.order.filter (fun x => x ≠ h) := by
            rw [removeByHash_eq_some hfe]
          rw [heq, horder]
          have h1 : (h :: t).filter (fun x => x ≠ h) =
              t.filter (fun x => x ≠ h) := by simp
          have h2 : t.filter (fun x => x ≠ h) = t := by
            refine List.filter_eq_self.mpr ?_
            intro x hx
            have hxh : x ≠ h := fun heq' => hnt (heq' ▸ hx)
            simpa using hxh
          rw [h1, h2]
        have hNr : (removeByHash h d).numElements = d.numElements - 1 := by
          rw [removeByHash_eq_some hfe]
        have hfuel' : (removeByHash h d).numElements ≤ n + limit := by
          rw [hNr]
          omega
        obtain ⟨ho, hn⟩ := ih hwfr hfuel'
        refine ⟨?_, ?_⟩
        · rw [ho, hOr, hNr]
          have hsplit : d.numElements - limit =
              (d.numElements - 1 - limit) + 1 := by omega
          rw [hsplit, List.drop_succ_cons]
        · rw [hn, hNr]
          omega

theorem enforceMaxResults_of_le {d : QueryCacheDatabaseEntry} {limit : Nat}
    (hle : d.numElements ≤ limit) : enforceMaxResults limit d = d := by
  unfold enforceMaxResults
  cases hn : d.numElements with
  | zero => rfl
  | succ k =>
    unfold enforceLoop
    rw [if_pos hle]

theorem enforceMaxResults_order {d : QueryCacheDatabaseEntry}
    (hwf : WellFormed d) (limit : Nat) :
    (enforceMaxResults limit d).order =
      d.order.drop (d.numElements - limit) :=
  (enforceLoop_spec limit d.numElements hwf (Nat.le_add_right _ _)).1

theorem enforceMaxResults_numElements {d : QueryCacheDatabaseEntry}
    (hwf : WellFormed d) (limit : Nat) :
    (enforceMaxResults limit d).numElements = min d.numElements limit :=
  (enforceLoop_spec limit d.numElements hwf (Nat.le_add_right _ _)).2

theorem enforceLoop_find_mono (limit : Nat) :
    ∀ (fuel : Nat) {d : QueryCacheDatabaseEntry} {h : Nat}
      {e : QueryCacheResultEntry},
      assocFind h (enforceLoop limit fuel d).entriesByHash = some e →
      assocFind h d.entriesByHash = some e := by
  intro fuel
  induction fuel with
  | zero => intro d h e hf; exact hf
  | succ n ih =>
    intro d h e hf
    unfold enforceLoop at hf
    by_cases hle : d.numElements ≤ limit
    · rw [if_pos hle] at hf
      exact hf
    · rw [if_neg hle] at hf
      cases horder : d.order with
      | nil =>
        rw [horder] at hf
        exact hf
      | cons x t =>
        rw [horder] at hf
        have := ih hf
        rw [removeByHash_find] at this
        by_cases hh : h = x
        · rw [if_pos hh] at this
          exact Option.noConfusion this
        · rw [if_neg hh] at this
          exact this

theorem enforceMaxResults_find_iff {d : QueryCacheDatabaseEntry}
    (hwf : WellFormed d) (limit h : Nat) (e : QueryCacheResultEntry) :
    assocFind h (enforceMaxResults limit d).entriesByHash = some e ↔
      assocFind h d.entriesByHash = some e ∧
        h ∈ d.order.drop (d.numElements - limit) := by
  have hwfE := wf_enforceMaxResults hwf limit
  constructor
  · intro hf
    refine ⟨enforceLoop_find_mono limit d.numElements hf, ?_⟩
    rw [← enforceMaxResults_order hwf limit]
    exact (hwfE.mem_order_iff h).mp (mem_assocKeys.mpr ⟨e, hf⟩)
  · rintro ⟨hfd, hmem⟩
    rw [← enforceMaxResults_order hwf limit] at hmem
    have hk := (hwfE.mem_order_iff h).mpr hmem
    obtain ⟨e', hfe'⟩ := mem_assocKeys.mp hk
    have hmono := enforceLoop_find_mono limit d.numElements hfe'
    rw [hfd] at hmono
    obtain rfl := Option.some.inj hmono
    exact hfe'

theorem invalidateOne_find_mono {ds : String} {d : QueryCacheDatabaseEntry}
    {h : Nat} {e : QueryCacheResultEntry}
    (hf : assocFind h (invalidateOne ds d).entriesByHash = some e) :
    assocFind h d.entriesByHash = some e := by
  cases hfind : assocFind ds d.entriesByDataSource with
  | none =>
    rw [invalidateOne_eq_none hfind] at hf
    exact hf
  | some S =>
    rw [invalidateOne_eq_some hfind] at hf
    exact (foldRemove_find_some hf).1

theorem invalidate_find_mono {dss : List String} {h : Nat}
    {e : QueryCacheResultEntry} :
    ∀ {d : QueryCacheDatabaseEntry},
      assocFind h (invalidate dss d).entriesByHash = some e →
      assocFind h d.entriesByHash = some e := by
  induction dss with
  | nil => intro d hf; exact hf
  | cons x rest ih =>
    intro d hf
    have hstep : invalidate (x :: rest) d =
        invalidate rest (invalidateOne x d) := by
      unfold invalidate
      rw [List.foldl_cons]
    rw [hstep] at hf
    exact invalidateOne_find_mono (ih hf)

theorem invalidate_none_mono {dss : List String} {h : Nat}
    {d : QueryCacheDatabaseEntry}
    (hf : assocFind h d.entriesByHash = none) :
    assocFind h (invalidate dss d).entriesByHash = none := by
  cases hres : assocFind h (invalidate dss d).entriesByHash with
  | none => rfl
  | some e =>
    have := invalidate_find_mono hres
    rw [hf] at this
    exact Option.noConfusion this

theorem invalidate_removes {dss : List String} {ds : String} {h : Nat} :
    ∀ {d : QueryCacheDatabaseEntry}, WellFormed d → ds ∈ dss →
      registered ds h d.entriesByDataSource →
      assocFind h (invalidate dss d).entriesByHash = none := by
  induction dss with
  | nil =>
    intro d _ hds _
    exact absurd hds (List.not_mem_nil ds)
  | cons x rest ih =>
    intro d hwf hds hreg
    have hstep : invalidate (x :: rest) d =
        invalidate rest (invalidateOne x d) := by
      unfold invalidate
      rw [List.foldl_cons]
    rw [hstep]
    rcases List.mem_cons.mp hds with rfl | hmem
    · obtain ⟨s, hs, hm⟩ := hreg
      have hgone : assocFind h (invalidateOne ds d).entriesByHash = none := by
        rw [invalidateOne_eq_some hs]
        exact foldRemove_find_none hm
      exact invalidate_none_mono hgone
    · have hwf1 := wf_invalidateOne hwf x
      cases hf1 : assocFind h (invalidateOne x d).entriesByHash with
      | none => exact invalidate_none_mono hf1
      | some e' =>
        have hfd := invalidateOne_find_mono hf1
        obtain ⟨e0, he0, hds0⟩ := hwf.reg_exact ds h hreg
        rw [he0] at hfd
        obtain rfl := Option.some.inj hfd
        have hreg1 := hwf1.entry_reg h e0 hf1 ds hds0
        exact ih hwf1 hmem hreg1

theorem reachable_wf {d : QueryCacheDatabaseEntry} (h : Reachable d) :
    WellFormed d := by
  induction h with
  | init => exact wf_empty
  | store hash entry _ ih => exact wf_store ih hash entry
  | invalidate dss _ ih => exact wf_invalidate ih dss
  | invalidateAll _ _ => exact wf_empty
  | enforce limit _ ih => exact wf_enforceMaxResults ih limit

end QueryCacheDatabaseEntry

/-! ### The claims -/

namespace QueryCacheDatabaseEntry

/-- C1: For every database cache state and stored entry with hash `H` and
query text `T`, `lookup(H, T')` returns the stored entry exactly when
`T' = T`; when an entry with hash `H` exists but its query text differs
the lookup is a miss (never an error), and when no entry with hash `H`
exists the lookup is a miss. -/
theorem lookup_collision_spec (d : QueryCacheDatabaseEntry) (hash : Nat)
    (qs : String) :
    (∀ e, assocFind hash d.entriesByHash = some e →
      d.lookup hash qs = if e.queryString = qs then some e else none) ∧
    (assocFind hash d.entriesByHash = none → d.lookup hash qs = none) := by
  constructor
  · intro e he
    unfold QueryCacheDatabaseEntry.lookup
    rw [he]
  · intro he
    unfold QueryCacheDatabaseEntry.lookup
    rw [he]

/-- Witness for C1 on the one-entry cache: a lookup with the wrong text
misses and a lookup with the stored text hits. -/
theorem lookup_collision_spec_witness :
    dXY.lookup 1 "B" = none ∧ dXY.lookup 1 "q" = some entryXY := by
  have h1 := (lookup_collision_spec dXY 1 "B").1 entryXY (by decide)
  have h2 := (lookup_collision_spec dXY 1 "q").1 entryXY (by decide)
  rw [h1, h2]
  decide

/-- C2: `invalidate(dataSources)` removes every entry depending on any
identifier of the input entirely — the entry becomes unreachable by
lookup, is unlinked from the ordering list, the counts stay consistent
(the state stays well formed) and its hash disappears from every
reverse-index set — while an identifier with no cached dependents is a
no-op on the state; in particular for an entry depending on `{X, Y}`,
after `invalidate({X})` its hash misses and `invalidate({Y})` is a
no-op. -/
theorem invalidate_cascade_spec (d : QueryCacheDatabaseEntry)
    (dss : List String) (hwf : WellFormed d) :
    (∀ ds, assocFind ds d.entriesByDataSource = none →
      d.invalidate [ds] = d) ∧
    (∀ ds s h, ds ∈ dss → assocFind ds d.entriesByDataSource = some s →
      h ∈ s →
      assocFind h (d.invalidate dss).entriesByHash = none ∧
      (∀ qs, (d.invalidate dss).lookup h qs = none) ∧
      h ∉ (d.invalidate dss).order ∧
      (∀ ds', ¬ registered ds' h (d.invalidate dss).entriesByDataSource)) ∧
    WellFormed (d.invalidate dss) ∧
    ((dXY.invalidate ["X"]).lookup 1 "q" = none ∧
      (dXY.invalidate ["X"]).invalidate ["Y"] = dXY.invalidate ["X"]) := by
  have hwfI := wf_invalidate hwf dss
  refine ⟨?_, ?_, hwfI, by decide⟩
  · intro ds hnone
    show invalidateOne ds d = d
    exact invalidateOne_eq_none hnone
  · intro ds s h hds hfind hmem
    have hreg : registered ds h d.entriesByDataSource := ⟨s, hfind, hmem⟩
    have hnone := invalidate_removes hwf hds hreg
    refine ⟨hnone, ?_, ?_, ?_⟩
    · intro qs
      unfold QueryCacheDatabaseEntry.lookup
      rw [hnone]
    · intro hmemO
      exact (assocFind_eq_none.mp hnone) ((hwfI.mem_order_iff h).mpr hmemO)
    · intro ds' hreg'
      obtain ⟨e, he, -⟩ := hwfI.reg_exact ds' h hreg'
      rw [hnone] at he
      exact Option.noConfusion he

/-- Witness for C2: invalidating `X` on the one-entry cache makes the
entry's hash unreachable. -/
theorem invalidate_cascade_spec_witness :
    assocFind 1 (dXY.invalidate ["X"]).entriesByHash = none :=
  ((invalidate_cascade_spec dXY ["X"] (wf_store wf_empty 1 entryXY)).2.1
    "X" [1] 1 (by decide) (by decide) (by decide)).1

/-- C3: `enforceMaxResults(L)` removes entries from the head of the
ordering list (oldest first) until `numElements ≤ L` — afterwards the
list is the original list with the excess oldest entries dropped, the
count is `min numElements L`, and an entry survives (with its payload)
exactly when it is among the newest `L`; it is a no-op when already
within bound. With a ceiling of 2, storing hashes 1, 2, 3 in order
leaves 1 evicted while 2 and 3 stay reachable by lookup. -/
theorem enforceMaxResults_evicts_oldest (d : QueryCacheDatabaseEntry)
    (L : Nat) (hwf : WellFormed d) :
    (d.numElements ≤ L → d.enforceMaxResults L = d) ∧
    (d.enforceMaxResults L).order = d.order.drop (d.numElements - L) ∧
    (d.enforceMaxResults L).numElements = min d.numElements L ∧
    (∀ h e, assocFind h (d.enforceMaxResults L).entriesByHash = some e ↔
      assocFind h d.entriesByHash = some e ∧
        h ∈ d.order.drop (d.numElements - L)) ∧
    ((qcThree.lookup 7 1 "Q1").2 = none ∧
      (qcThree.lookup 7 2 "Q2").2 = some
        { hash := 2, queryString := "Q2", queryResult := 12, stats := 0
          dataSources := ["X"] } ∧
      (qcThree.lookup 7 3 "Q3").2 = some
        { hash := 3, queryString := "Q3", queryResult := 13, stats := 0
          dataSources := ["X"] }) :=
  ⟨fun hle => enforceMaxResults_of_le hle,
   enforceMaxResults_order hwf L,
   enforceMaxResults_numElements hwf L,
   fun h e => enforceMaxResults_find_iff hwf L h e,
   by decide⟩

/-- Witness for C3: enforcing a zero ceiling on the one-entry cache
leaves `min 1 0 = 0` entries. -/
theorem enforceMaxResults_evicts_oldest_witness :
    (dXY.enforceMaxResults 0).numElements = min dXY.numElements 0 :=
  (enforceMaxResults_evicts_oldest dXY 0
    (wf_store wf_empty 1 entryXY)).2.2.1

/-- C4: every database cache state reachable by any sequence of store,
invalidate (targeted or whole-database) and enforceMaxResults operations
keeps `numElements` equal to the size of `entriesByHash` and to the
length of the ordering list, links an entry into the list exactly once
precisely when it is reachable from `entriesByHash`, keeps every hash of
every reverse-index set a key of `entriesByHash`, and registers every
entry's hash under each data source the entry names. -/
theorem reachable_state_invariants (d : QueryCacheDatabaseEntry)
    (hreach : Reachable d) :
    d.numElements = d.entriesByHash.length ∧
    d.numElements = d.order.length ∧
    (∀ h, h ∈ assocKeys d.entriesByHash ↔ d.order.count h = 1) ∧
    (∀ ds s h, assocFind ds d.entriesByDataSource = some s → h ∈ s →
      h ∈ assocKeys d.entriesByHash) ∧
    (∀ h e, assocFind h d.entriesByHash = some e →
      ∀ ds ∈ e.dataSources,
        ∃ s, assocFind ds d.entriesByDataSource = some s ∧ h ∈ s) := by
  have hwf := reachable_wf hreach
  refine ⟨hwf.size_hash, hwf.size_order, ?_, ?_, ?_⟩
  · intro h
    constructor
    · intro hk
      exact List.count_eq_one_of_mem hwf.nodup_order
        ((hwf.mem_order_iff h).mp hk)
    · intro hc
      have hpos : 0 < d.order.count h := by omega
      exact (hwf.mem_order_iff h).mpr (List.count_pos_iff.mp hpos)
  · intro ds s h hfind hmem
    obtain ⟨e, he, -⟩ := hwf.reg_exact ds h ⟨s, hfind, hmem⟩
    exact mem_assocKeys.mpr ⟨e, he⟩
  · intro h e he ds hds
    exact hwf.entry_reg h e he ds hds

/-- Witness for C4 at a concrete reachable state. -/
theorem reachable_state_invariants_witness :
    dXY.numElements = dXY.entriesByHash.length :=
  (reachable_state_invariants dXY
    (Reachable.store 1 entryXY Reachable.init)).1

/-- C8: storing a hash that is already present is handled
deterministically as a clean remove-then-insert, the structural
invariants still hold afterwards, the new entry is the one found under
the hash, and the hash is reachable from the primary index and linked in
the ordering list exactly once. -/
theorem store_duplicate_guard (d : QueryCacheDatabaseEntry) (hash : Nat)
    (e0 e : QueryCacheResultEntry) (hwf : WellFormed d)
    (hdup : assocFind hash d.entriesByHash = some e0) :
    QueryCacheDatabaseEntry.store hash e d =
      QueryCacheDatabaseEntry.store hash e (removeByHash hash d) ∧
    WellFormed (QueryCacheDatabaseEntry.store hash e d) ∧
    assocFind hash
      (QueryCacheDatabaseEntry.store hash e d).entriesByHash = some e ∧
    (assocKeys
      (QueryCacheDatabaseEntry.store hash e d).entriesByHash).count hash
      = 1 ∧
    (QueryCacheDatabaseEntry.store hash e d).order.count hash = 1 := by
  have hwfS := wf_store hwf hash e
  have hfs : assocFind hash
      (QueryCacheDatabaseEntry.store hash e d).entriesByHash = some e := by
    rw [store_entriesByHash, assocFind_cons, if_pos rfl]
  have hmemK :
      hash ∈ assocKeys (QueryCacheDatabaseEntry.store hash e d).entriesByHash :=
    mem_assocKeys.mpr ⟨e, hfs⟩
  have hmemO : hash ∈ (QueryCacheDatabaseEntry.store hash e d).order :=
    (hwfS.mem_order_iff hash).mp hmemK
  refine ⟨?_, hwfS, hfs, ?_, ?_⟩
  · have h0 : removeByHash hash (removeByHash hash d) = removeByHash hash d :=
      removeByHash_eq_none (by rw [removeByHash_find, if_pos rfl])
    unfold QueryCacheDatabaseEntry.store
    rw [h0]
  · exact List.count_eq_one_of_mem hwfS.nodup_keys hmemK
  · exact List.count_eq_one_of_mem hwfS.nodup_order hmemO

/-- Witness for C8: re-storing hash 1 on the one-entry cache leaves the
new entry reachable under hash 1. -/
theorem store_duplicate_guard_witness :
    assocFind 1
      (QueryCacheDatabaseEntry.store 1 entryXY dXY).entriesByHash =
      some entryXY :=
  (store_duplicate_guard dXY 1 entryXY entryXY
    (wf_store wf_empty 1 entryXY) (by decide)).2.2.1

end QueryCacheDatabaseEntry

namespace QueryCache

/-- C5: with the engine mode `ALWAYS_OFF`, `store` is a no-op on the
cache state and `lookup` short-circuits to a miss, so a store followed
immediately by a lookup for the same hash misses. -/
theorem mode_off_gating (qc : QueryCache) (db hash : Nat) (qs qs' : String)
    (r s : Nat) (dss : List String)
    (hmode : qc.mode = QueryCacheMode.CACHE_ALWAYS_OFF) :
    qc.store db hash qs r s dss = qc ∧
    (qc.lookup db hash qs').2 = none ∧
    ((qc.store db hash qs r s dss).lookup db hash qs').2 = none := by
  have hstore : qc.store db hash qs r s dss = qc := by
    unfold QueryCache.store
    rw [if_pos hmode]
  have hlook : (qc.lookup db hash qs').2 = none := by
    unfold QueryCache.lookup
    rw [if_pos hmode]
  refine ⟨hstore, hlook, ?_⟩
  rw [hstore]
  exact hlook

/-- Witness for C5: on the switched-off engine, storing is a no-op. -/
theorem mode_off_gating_witness :
    ((qcOff.store 7 1 "Q1" 11 0 ["X"]).lookup 7 1 "Q1").2 = none :=
  (mode_off_gating qcOff 7 1 "Q1" "Q1" 11 0 ["X"] rfl).2.2

/-- C6: `setMaxResults(n)` stores the new ceiling and runs eviction on
every database's cache: a cache already within bound is left unchanged
(every entry still retrievable), a cache with count `C > n` is cut to
exactly `n` entries — evicting exactly `C - n`, the oldest-inserted
ones — and a zero bound evicts everything. -/
theorem setMaxResults_resize_spec (qc : QueryCache) (n : Nat) :
    ((QueryCache.setMaxResults n qc).maxResults = n ∧
      (QueryCache.setMaxResults n qc).mode = qc.mode) ∧
    (∀ db d, assocFind db qc.entries = some d → WellFormed d →
      assocFind db (QueryCache.setMaxResults n qc).entries =
        some (d.enforceMaxResults n) ∧
      (d.numElements ≤ n → d.enforceMaxResults n = d) ∧
      (n < d.numElements → (d.enforceMaxResults n).numElements = n ∧
        (d.enforceMaxResults n).order =
          d.order.drop (d.numElements - n)) ∧
      (n = 0 → (d.enforceMaxResults n).numElements = 0)) := by
  refine ⟨⟨rfl, rfl⟩, ?_⟩
  intro db d hfind hwf
  refine ⟨?_, fun hle =>
    QueryCacheDatabaseEntry.enforceMaxResults_of_le hle, ?_, ?_⟩
  · show assocFind db
        (qc.entries.map (fun p => (p.1, p.2.enforceMaxResults n))) = _
    rw [assocFind_map_value
      (fun x => QueryCacheDatabaseEntry.enforceMaxResults n x) db qc.entries,
      hfind]
    rfl
  · intro hlt
    refine ⟨?_, QueryCacheDatabaseEntry.enforceMaxResults_order hwf n⟩
    rw [QueryCacheDatabaseEntry.enforceMaxResults_numElements hwf n]
    omega
  · intro h0
    rw [QueryCacheDatabaseEntry.enforceMaxResults_numElements hwf n, h0]
    omega

/-- Witness for C6: shrinking the ceiling maps the stored database cache
through the eviction pass. -/
theorem setMaxResults_resize_spec_witness :
    assocFind 5 (QueryCache.setMaxResults 2 qcOne).entries =
      some (dXY.enforceMaxResults 2) :=
  ((setMaxResults_resize_spec qcOne 2).2 5 dXY (by decide)
    (QueryCacheDatabaseEntry.wf_store QueryCacheDatabaseEntry.wf_empty
      1 entryXY)).1

/-- C7: a lookup — hit, miss or hash-collision miss — leaves the entire
engine state unchanged: no entry is added, removed or repositioned and
no index or counter changes. -/
theorem lookup_preserves_state (qc : QueryCache) (db hash : Nat)
    (qs : String) : (qc.lookup db hash qs).1 = qc := by
  unfold QueryCache.lookup
  by_cases hmode : qc.mode = QueryCacheMode.CACHE_ALWAYS_OFF
  · rw [if_pos hmode]
  · rw [if_neg hmode]
    cases assocFind db qc.entries <;> rfl

/-- C9: `setMode(m)` leaves all stored entries and the configured
ceiling of every database cache unchanged; only the mode changes. -/
theorem setMode_preserves_entries (qc : QueryCache) (m : QueryCacheMode) :
    (QueryCache.setMode m qc).entries = qc.entries ∧
    (QueryCache.setMode m qc).maxResults = qc.maxResults ∧
    (QueryCache.setMode m qc).mode = m :=
  ⟨rfl, rfl, rfl⟩

end QueryCache

end QueryCacheModel
